import Mathlib

set_option maxRecDepth 8192

namespace NdisApp

/-! Shallow embedding of the core data structures and operations of
`ndis_assistant_v2_complete/app3.2.py` (NDIS Expense Assistant v3.2).
Python dicts are modelled as association lists with unique keys, Python
sets as lists up to membership, timestamps as opaque strings supplied by
the caller, and exceptions as `Option` results or explicit failure
injection parameters. -/

/-- Python `str.lower()` restricted to the ASCII range, over the string's
character list (kernel-computable, unlike `String.toLower`). -/
def strLower (s : String) : String := ⟨s.data.map Char.toLower⟩

/-- Python `str.strip()`: drop leading and trailing whitespace. -/
def strTrim (s : String) : String :=
  ⟨((s.data.dropWhile Char.isWhitespace).reverse.dropWhile
      Char.isWhitespace).reverse⟩

/-- Python `str.startswith(p)`. -/
def strStartsWith (s p : String) : Bool := p.data.isPrefixOf s.data

/-- Python `str.endswith(p)`. -/
def strEndsWith (s p : String) : Bool := p.data.isSuffixOf s.data

def charLt (a b : Char) : Bool := decide (a < b)

/-- Lexicographic order on character lists (filename ordering). -/
def lexLe : List Char → List Char → Bool
  | [], _ => true
  | _ :: _, [] => false
  | a :: as, b :: bs => if a = b then lexLe as bs else charLt a b

/-- Lexicographic filename order, the "sorted discovery order" sense. -/
def strLe (a b : String) : Bool := lexLe a.data b.data

/-- Strict lexicographic order (Python string `<`). -/
def strLt (a b : String) : Bool := !(strLe b a)

/-- Mirrors the `OCRCacheEntry` dataclass (app3.2.py lines 120-127). -/
structure OCRCacheEntry where
  merchant : String
  amount : String
  date : String
  subcategory : String
  needs_attention : Bool
  error : Option String := none
deriving DecidableEq, Repr

/-- State of `LRUCache` (app3.2.py lines 194-217): `max_size`, the digest →
entry dict (association list), and `access_order`, the recency list kept
most-recently-accessed first (`insert(0, …)` at the front, `pop()` takes the
least recently accessed from the back). -/
structure LRUState where
  maxSize : Nat
  cache : List (String × OCRCacheEntry)
  accessOrder : List String
deriving DecidableEq, Repr

/-- The digests currently stored in the cache dict. -/
def keysOf (s : LRUState) : List String := s.cache.map Prod.fst

/-- `LRUCache.get` (lines 202-207): on a hit, move the digest to the front of
`access_order` (`remove` then `insert(0, …)`) and return the entry; on a miss
return `None` leaving the state untouched. -/
def lruGet (s : LRUState) (h : String) : Option OCRCacheEntry × LRUState :=
  match s.cache.lookup h with
  | some e => (some e, { s with accessOrder := h :: s.accessOrder.erase h })
  | none => (none, s)

/-- `LRUCache.put` (lines 209-217): an already-present digest has its entry
replaced in place and is moved to the front of `access_order`; otherwise, if
the cache is full, `access_order.pop()` yields the least-recently-used digest
which is deleted before the new pair is inserted at the front.  `none` models
the `IndexError`/`KeyError` the Python raises when `pop()` finds an empty
list or `del` a missing key (unreachable from invariant-satisfying states
with `maxSize ≥ 1`); the Python state is not mutated in that case. -/
def lruPut (s : LRUState) (h : String) (e : OCRCacheEntry) : Option LRUState :=
  if (s.cache.lookup h).isSome then
    some { s with
      cache := s.cache.map (fun p => if p.1 = h then (h, e) else p),
      accessOrder := h :: s.accessOrder.erase h }
  else if s.maxSize ≤ s.cache.length then
    match s.accessOrder.getLast? with
    | none => none
    | some lru =>
        if (s.cache.lookup lru).isSome then
          some { s with
            cache := (s.cache.eraseP (fun p => p.1 == lru)) ++ [(h, e)],
            accessOrder := h :: s.accessOrder.dropLast }
        else none
  else
    some { s with
      cache := s.cache ++ [(h, e)],
      accessOrder := h :: s.accessOrder }

/-- Representation invariant of `LRUCache`: unique keys, `access_order` is a
permutation of the key set, and the entry count never exceeds the bound. -/
def LRUInv (s : LRUState) : Prop :=
  (keysOf s).Nodup ∧ List.Perm s.accessOrder (keysOf s) ∧
    s.cache.length ≤ s.maxSize

instance (s : LRUState) : Decidable (LRUInv s) := by
  unfold LRUInv
  infer_instance

/-- Parsed shape of the cache file as `load_from_file` (lines 219-234) sees
it: missing, `json.load` failure, a JSON value without the `entries` dict, or
the `entries` dict in iteration order — `none` marks an entry whose fields do
not match the `OCRCacheEntry` constructor, which therefore raises. -/
inductive CacheFileContent where
  | absent
  | badJson
  | notEntriesDict
  | entriesList (l : List (String × Option OCRCacheEntry))
deriving DecidableEq, Repr

/-- The `for` loop of `load_from_file`: `put` each entry in file order; a
raising constructor or a raising `put` jumps to the `except` branch, which
only logs — the state accumulated so far is kept. -/
def lruLoadEntries : LRUState → List (String × Option OCRCacheEntry) →
    LRUState
  | s, [] => s
  | s, (h, oe) :: rest =>
    match oe with
    | some e =>
      match lruPut s h e with
      | some s' => lruLoadEntries s' rest
      | none => s
    | none => s

/-- `LRUCache.load_from_file` (lines 219-234).  Every failure path is caught
by the bare `except`, which logs and returns; the cache is never cleared. -/
def lruLoadFromFile (s : LRUState) : CacheFileContent → LRUState
  | CacheFileContent.absent => s
  | CacheFileContent.badJson => s
  | CacheFileContent.notEntriesDict => s
  | CacheFileContent.entriesList l => lruLoadEntries s l

/-- Mirrors the `MerchantKnowledge` dataclass (lines 111-117). -/
structure MerchantKnowledge where
  merchant : String
  category : String
  confirmations : Nat
  first_seen : String
  last_confirmed : String
deriving DecidableEq, Repr

def MAX_KNOWLEDGE_ENTRIES : Nat := 10000

/-- The normalization applied by `learn_confirmation` and
`get_suggested_category`: `merchant.lower().strip()`. -/
def normalizeMerchant (m : String) : String := strTrim (strLower m)

/-- The `for entry in self.merchant_knowledge` loop of `learn_confirmation`
(lines 389-396): bump the first entry matching the normalized merchant and
the category, refresh its `last_confirmed`, or report no match. -/
def bumpFirst (nm c now : String) :
    List MerchantKnowledge → Option (List MerchantKnowledge)
  | [] => none
  | e :: rest =>
    if e.merchant = nm ∧ e.category = c then
      some ({ e with
        confirmations := e.confirmations + 1,
        last_confirmed := now } :: rest)
    else
      (bumpFirst nm c now rest).map (e :: ·)

/-- Stable ascending insertion by `last_confirmed`, modelling the stable
`list.sort(key=lambda x: x.last_confirmed)` of line 399. -/
def insertByLC (e : MerchantKnowledge) :
    List MerchantKnowledge → List MerchantKnowledge
  | [] => [e]
  | x :: xs =>
    if strLt x.last_confirmed e.last_confirmed then x :: insertByLC e xs
    else e :: x :: xs

def sortByLC : List MerchantKnowledge → List MerchantKnowledge
  | [] => []
  | x :: xs => insertByLC x (sortByLC xs)

/-- `LearningSystem.learn_confirmation` (lines 382-411): normalize, return
early on a blank merchant or category, bump an existing (merchant, category)
pair, or evict the oldest-by-`last_confirmed` entry when at capacity and
append a fresh entry with one confirmation.  The Bool records whether
`save_knowledge_atomic` was invoked (it is, on every mutation; it is not on
the early return). -/
def learnConfirmation (knowledge : List MerchantKnowledge)
    (merchant category now : String) : List MerchantKnowledge × Bool :=
  let nm := normalizeMerchant merchant
  let c := strTrim category
  if nm = "" ∨ c = "" then (knowledge, false)
  else
    match bumpFirst nm c now knowledge with
    | some k' => (k', true)
    | none =>
      let k1 := if MAX_KNOWLEDGE_ENTRIES ≤ knowledge.length then
          (sortByLC knowledge).tail
        else knowledge
      (k1 ++ [⟨nm, c, 1, now, now⟩], true)

/-- `n` successive confirmations of the same (merchant, category) pair
starting from empty knowledge. -/
def learnN (merchant category now : String) : Nat → List MerchantKnowledge
  | 0 => []
  | n + 1 =>
    (learnConfirmation (learnN merchant category now n)
      merchant category now).1

/-- One `category_counts[entry.category] += entry.confirmations` step on the
insertion-ordered `defaultdict`: bump an existing key in place or append the
new key at the end. -/
def bumpCount (c : String) (n : Nat) :
    List (String × Nat) → List (String × Nat)
  | [] => [(c, n)]
  | p :: rest =>
    if p.1 = c then (p.1, p.2 + n) :: rest else p :: bumpCount c n rest

/-- The accumulation loop of `get_suggested_category` (lines 418-421). -/
def countsAux (nm : String) :
    List (String × Nat) → List MerchantKnowledge → List (String × Nat)
  | acc, [] => acc
  | acc, e :: rest =>
    countsAux nm
      (if e.merchant = nm then bumpCount e.category e.confirmations acc
       else acc) rest

def categoryCounts (nm : String) (knowledge : List MerchantKnowledge) :
    List (String × Nat) :=
  countsAux nm [] knowledge

/-- Python's `max(items, key=lambda x: x[1])`: the first item of maximal
count in iteration order (later items replace only on strictly greater). -/
def maxByFirst : List (String × Nat) → Option (String × Nat)
  | [] => none
  | p :: rest =>
    some (rest.foldl (fun best q => if best.2 < q.2 then q else best) p)

/-- `LearningSystem.get_suggested_category` (lines 413-431). -/
def getSuggestedCategory (knowledge : List MerchantKnowledge)
    (merchant : String) (threshold : Nat) : Option String :=
  let nm := normalizeMerchant merchant
  if nm = "" then none
  else
    match maxByFirst (categoryCounts nm knowledge) with
    | none => none
    | some (cat, cnt) => if threshold ≤ cnt then some cat else none

/-- Spec-side helper: first occurrences, in order, of a list of category
names, skipping anything already seen. -/
def firstOccurAux (seen : List String) : List String → List String
  | [] => []
  | x :: xs =>
    if x ∈ seen then firstOccurAux seen xs
    else x :: firstOccurAux (x :: seen) xs

/-- The categories of the entries matching the normalized merchant, in
knowledge-list order (with repetitions). -/
def matCats (nm : String) (knowledge : List MerchantKnowledge) :
    List String :=
  (knowledge.filter (fun e => e.merchant == nm)).map (·.category)

/-- Spec-side: the categories confirmed for the normalized merchant, in
first-seen order (first appearance in the knowledge list). -/
def specCatsFirstSeen (nm : String)
    (knowledge : List MerchantKnowledge) : List String :=
  firstOccurAux [] (matCats nm knowledge)

/-- Spec-side: the summed confirmation count of one (merchant, category)
pair. -/
def specTotal (nm c : String) (knowledge : List MerchantKnowledge) : Nat :=
  ((knowledge.filter
      (fun e => e.merchant == nm && e.category == c)).map
    (·.confirmations)).sum

/-- Modelled from the spec's words (§4.3): sum confirmation counts per
category for the normalized merchant, return the category with the highest
total only if that total reaches the threshold, ties broken by first-seen
order.  Used as the comparison point of the refinement claim about
`get_suggested_category`. -/
def specSuggestion (knowledge : List MerchantKnowledge)
    (merchant : String) (threshold : Nat) : Option String :=
  let nm := normalizeMerchant merchant
  if nm = "" then none
  else
    match maxByFirst ((specCatsFirstSeen nm knowledge).map
        (fun c => (c, specTotal nm c knowledge))) with
    | none => none
    | some (cat, cnt) => if threshold ≤ cnt then some cat else none

/-- A staged move: source path, destination path. -/
structure Move where
  src : String
  dst : String
deriving DecidableEq, Repr

/-- The `for src, dst in self.staged_moves: shutil.move(src, dst)` loop of
`TransactionManager.commit`: perform the moves in order until one raises
(`moveFails`).  Returns the moves actually performed and whether all
succeeded. -/
def execMoves (moveFails : Move → Bool) : List Move → List Move × Bool
  | [] => ([], true)
  | m :: rest =>
    if moveFails m then ([], false)
    else
      let (ms, ok) := execMoves moveFails rest
      (m :: ms, ok)

/-- `TransactionManager.commit` (lines 700-716): run the CSV callback first;
a False result raises, the except branch calls `rollback()` (clearing the
staged list) and returns False with nothing moved.  On callback success the
staged moves run in order; a raising move also lands in the except branch
(already-performed moves stay performed, staged list cleared).  Result:
(returned ok, moves executed on the filesystem in order, staged list
afterwards). -/
def tmCommit (staged : List Move) (csvCallbackOk : Bool)
    (moveFails : Move → Bool) : Bool × List Move × List Move :=
  if csvCallbackOk then
    let (ms, ok) := execMoves moveFails staged
    if ok then (true, ms, []) else (false, ms, [])
  else (false, [], [])

/-- Mirrors the `TransactionItem` dataclass (lines 97-108); `filepath` kept
as a string. -/
structure TransactionItem where
  file_hash : String
  filename : String
  filepath : String
  date_raw : String
  amount_raw : String
  MerchantOCRValue : String
  category : String
  description : String
  status : String
  completed_timestamp : Option String := none
deriving DecidableEq, Repr

/-- The slice of `DataManager` state that ingestion touches: the pending
list and the known-hash set (a Python set, modelled as a list up to
membership). -/
structure DMState where
  pending : List TransactionItem
  hashes : List String
deriving DecidableEq, Repr

/-- `DataManager.add_pending` (lines 662-666): append the item and add its
digest to the hash set — no membership check of any kind. -/
def addPending (st : DMState) (item : TransactionItem) : DMState :=
  { pending := st.pending ++ [item],
    hashes :=
      if item.file_hash ∈ st.hashes then st.hashes
      else st.hashes ++ [item.file_hash] }

/-- The filename filter of `ScanWorker.run` (line 765):
`file.startswith("Screenshot_") and file.endswith((".jpg", ".jpeg"))`. -/
def isScreenshotFile (name : String) : Bool :=
  strStartsWith name "Screenshot_" &&
    (strEndsWith name ".jpg" || strEndsWith name ".jpeg")

/-- The candidate list `all_files` built by `ScanWorker.run` (lines 762-766):
the `os.walk` enumeration in exactly the order the walk yields it, filtered
by the screenshot name pattern.  No sorting is applied anywhere in `run`. -/
def discoveredFiles (walkOrder : List String) : List String :=
  walkOrder.filter isScreenshotFile

/-- The `TransactionItem` built by the `csv_callback` closure in
`ScanWorker.run` (lines 822-834): status pending, empty category and
description, extraction fields from the OCR result, path from the staged
destination. -/
def mkScanItem (name hash : String) (res : OCRCacheEntry)
    (finalPath : String) : TransactionItem :=
  { file_hash := hash, filename := name, filepath := finalPath,
    date_raw := res.date, amount_raw := res.amount,
    MerchantOCRValue := res.merchant, category := "", description := "",
    status := "pending", completed_timestamp := none }

/-- `ScanWorker.run` (lines 757-864) restricted to its record-creating
effect, on the path where every stage and commit succeeds (then `commit`
runs `csv_callback`, which calls `add_pending` unconditionally and returns
True).  `files` lists the discovered files as (filename, content digest) in
processing order; `res` is the extraction collaborator keyed by digest
(identical bytes give identical results, cached or not).  The known-hash
set `st.hashes` is copied from the data manager ONCE, before the loop
(line 773), and is not re-consulted while items are added. -/
def runScan (st : DMState) (files : List (String × String))
    (res : String → OCRCacheEntry) (finalPath : String → String) : DMState :=
  let newFiles := files.filter (fun f => !(st.hashes.contains f.2))
  newFiles.foldl
    (fun acc f =>
      addPending acc (mkScanItem f.1 f.2 (res f.2) (finalPath f.1))) st

/-- One row of completed.csv, in the column order written by
`append_completed` (lines 1596-1606). -/
structure CompletedRow where
  file_hash : String
  completed_timestamp : Option String
  filename : String
  date_raw : String
  amount_raw : String
  MerchantOCRValue : String
  category : String
  description : String
  status : String
deriving DecidableEq, Repr

def rowOf (it : TransactionItem) : CompletedRow :=
  ⟨it.file_hash, it.completed_timestamp, it.filename, it.date_raw,
    it.amount_raw, it.MerchantOCRValue, it.category, it.description,
    it.status⟩

/-- The application state touched by `mark_done`: the in-memory pending
list, the on-disk completed ledger, the in-memory completed mirror, the
hash set, and the learning system's knowledge list. -/
structure AppState where
  pending : List TransactionItem
  completedCsv : List CompletedRow
  completedMem : List TransactionItem
  hashes : List String
  knowledge : List MerchantKnowledge
deriving DecidableEq, Repr

/-- `NDISAssistant.append_completed` (lines 1592-1613): append one row to
completed.csv, then mirror the item into the in-memory completed list
(which also adds the digest to the hash set).  When the file append raises
(`appendFails`), the except branch only logs and shows an error dialog: the
ledger gains no row and the in-memory mirror is not updated either. -/
def appendCompleted (st : AppState) (item : TransactionItem)
    (appendFails : Bool) : AppState :=
  if appendFails then st
  else
    { st with
      completedCsv := st.completedCsv ++ [rowOf item],
      completedMem := st.completedMem ++ [item],
      hashes :=
        if item.file_hash ∈ st.hashes then st.hashes
        else st.hashes ++ [item.file_hash] }

/-- `NDISAssistant.mark_done` (lines 1496-1518) on a table row mapping to
pending index `idx`: pop the item from the pending list, stamp it done with
a completion timestamp, take the category combo's current text (keeping the
old category when that text is empty), learn the confirmation from the raw
combo text, append to the completed ledger, and rewrite the pending CSV
from the shrunk pending list.  `none` models the IndexError of
`remove_pending` on an out-of-range index. -/
def markDone (st : AppState) (idx : Nat) (comboCategory now : String)
    (appendFails : Bool) : Option AppState :=
  match st.pending[idx]? with
  | none => none
  | some item =>
    let pending' := st.pending.eraseIdx idx
    let item' := { item with
      status := "done",
      completed_timestamp := some now,
      category :=
        if comboCategory = "" then item.category else comboCategory }
    let knowledge' :=
      (learnConfirmation st.knowledge item.MerchantOCRValue
        comboCategory now).1
    some (appendCompleted
      { st with pending := pending', knowledge := knowledge' }
      item' appendFails)

/-- Where `save_pending_csv` is made to fail: nowhere, at the
`shutil.copy2` backup, while serializing the temp file, at `os.replace`, or
at the final backup unlink. -/
inductive SaveFail where
  | ok
  | atBackup
  | atSerialize
  | atRename
  | atCleanup
deriving DecidableEq, Repr

/-- The three files `save_pending_csv` touches, each `none` when absent;
content is the serialized row list. -/
structure PendingFs where
  live : Option (List String)
  bak : Option (List String)
  tmp : Option (List String)
deriving DecidableEq, Repr

/-- The `except` branch of `save_pending_csv` (lines 1643-1648): restore the
live CSV from the backup when one exists, remove the temp file, log the
error — and fall off the end.  Nothing is raised again or returned, so the
exception seen by the caller (second component) is `none`. -/
def saveExcept (fs : PendingFs) : PendingFs × Option String :=
  let fs1 := match fs.bak with
    | some b => { fs with live := some b }
    | none => fs
  ({ fs1 with tmp := none }, none)

/-- `NDISAssistant.save_pending_csv` (lines 1615-1648): back up the live
CSV when it exists, serialize the pending rows to a temp file, atomically
rename the temp file over the live file, then delete the backup.  `fail`
injects an exception at one step; every exception lands in the single
`except` branch (`saveExcept`).  A serialize failure leaves a partial temp
file (modelled as empty content); a rename failure leaves the live file
untouched (`os.replace` is atomic).  The second component is the exception
escaping to the caller: the Python catches everything and returns `None`,
so it is `none` on every path. -/
def savePendingCsv (fs : PendingFs) (rows : List String) (fail : SaveFail) :
    PendingFs × Option String :=
  match fs.live with
  | some c =>
    if fail = SaveFail.atBackup then saveExcept fs
    else
      let s1 : PendingFs := { fs with bak := some c }
      if fail = SaveFail.atSerialize then saveExcept { s1 with tmp := some [] }
      else
        let s2 : PendingFs := { s1 with tmp := some rows }
        if fail = SaveFail.atRename then saveExcept s2
        else
          let s3 : PendingFs := { s2 with live := some rows, tmp := none }
          if fail = SaveFail.atCleanup then saveExcept s3
          else ({ s3 with bak := none }, none)
  | none =>
    if fail = SaveFail.atSerialize then saveExcept { fs with tmp := some [] }
    else
      let s2 : PendingFs := { fs with tmp := some rows }
      if fail = SaveFail.atRename then saveExcept s2
      else
        let s3 : PendingFs := { s2 with live := some rows, tmp := none }
        match fs.bak with
        | some _ =>
          if fail = SaveFail.atCleanup then saveExcept s3
          else ({ s3 with bak := none }, none)
        | none => (s3, none)

/-- A fixed extraction result used by concrete test states below. -/
def sampleEntry : OCRCacheEntry :=
  ⟨"ALDI", "-$12.30", "14092025", "", false, none⟩

/-- A fixed pending item used by concrete test states below. -/
def sampleItem : TransactionItem :=
  ⟨"D1", "Screenshot_20250914_1.jpg", "dest/Screenshot_20250914_1.jpg",
    "14092025", "-$12.30", "ALDI", "", "", "pending", none⟩

theorem lookup_isSome_mem (l : List (String × OCRCacheEntry)) (h : String) :
    (l.lookup h).isSome ↔ h ∈ l.map Prod.fst := by
  simp only [List.lookup_isSome_iff, List.mem_map, beq_iff_eq]
  constructor
  · rintro ⟨p, hp, rfl⟩; exact ⟨p, hp, rfl⟩
  · rintro ⟨p, hp, rfl⟩; exact ⟨p, hp, rfl⟩

theorem keys_eraseP (l : List (String × OCRCacheEntry)) (k : String) :
    (l.eraseP (fun p => p.1 == k)).map Prod.fst = (l.map Prod.fst).erase k := by
  rw [List.erase_eq_eraseP', List.eraseP_map]
  rfl

theorem keys_replace (l : List (String × OCRCacheEntry)) (h : String)
    (e : OCRCacheEntry) :
    (l.map (fun p => if p.1 = h then (h, e) else p)).map Prod.fst =
      l.map Prod.fst := by
  rw [List.map_map]
  apply List.map_congr_left
  intro p _
  by_cases hp : p.1 = h <;> simp [hp]

theorem lruGet_inv (s : LRUState) (h : String) (hs : LRUInv s) :
    LRUInv (lruGet s h).2 := by
  obtain ⟨hnd, hperm, hlen⟩ := hs
  unfold lruGet
  cases hl : s.cache.lookup h with
  | none => exact ⟨hnd, hperm, hlen⟩
  | some e =>
    refine ⟨hnd, ?_, hlen⟩
    have hmem : h ∈ keysOf s :=
      (lookup_isSome_mem _ _).1 (by simp [hl])
    have hmem' : h ∈ s.accessOrder := hperm.mem_iff.2 hmem
    exact ((List.perm_cons_erase hmem').symm).trans hperm

theorem lruPut_inv (s : LRUState) (h : String) (e : OCRCacheEntry)
    (s' : LRUState) (hs : LRUInv s) (hput : lruPut s h e = some s') :
    LRUInv s' := by
  obtain ⟨hnd, hperm, hlen⟩ := hs
  unfold lruPut at hput
  split at hput
  case isTrue hin =>
    -- existing digest: entry replaced in place, recency refreshed
    simp only [Option.some.injEq] at hput
    subst hput
    have hk : keysOf { s with
        cache := s.cache.map (fun p => if p.1 = h then (h, e) else p),
        accessOrder := h :: s.accessOrder.erase h } = keysOf s :=
      keys_replace s.cache h e
    refine ⟨hk ▸ hnd, ?_, by simpa using hlen⟩
    rw [hk]
    have hmem : h ∈ keysOf s := (lookup_isSome_mem _ _).1 hin
    have hmem' : h ∈ s.accessOrder := hperm.mem_iff.2 hmem
    exact ((List.perm_cons_erase hmem').symm).trans hperm
  case isFalse hnotin =>
    split at hput
    case isTrue hfull =>
      split at hput
      case h_1 => exact absurd hput (by simp)
      case h_2 lru hlast =>
        split at hput
        case isFalse => exact absurd hput (by simp)
        case isTrue hlru =>
          simp only [Option.some.injEq] at hput
          subst hput
          have hnoth : h ∉ keysOf s := fun hc =>
            hnotin ((lookup_isSome_mem _ _).2 hc)
          have hkeys :
              keysOf { s with
                cache := s.cache.eraseP (fun p => p.1 == lru) ++ [(h, e)],
                accessOrder := h :: s.accessOrder.dropLast } =
                (keysOf s).erase lru ++ [h] := by
            show (s.cache.eraseP (fun p => p.1 == lru) ++ [(h, e)]).map
                Prod.fst = _
            rw [List.map_append, keys_eraseP]
            rfl
          refine ⟨?_, ?_, ?_⟩
          · rw [hkeys, List.nodup_append]
            refine ⟨hnd.erase _, List.nodup_singleton _, ?_⟩
            intro a ha hb
            have : a ∈ keysOf s := List.mem_of_mem_erase ha
            simp only [List.mem_singleton] at hb
            exact hnoth (hb ▸ this)
          · rw [hkeys]
            -- access_order was dropLast ++ [lru]; the new order is the new
            -- digest in front of dropLast
            have hsplit : s.accessOrder.dropLast ++ [lru] = s.accessOrder :=
              List.dropLast_append_getLast? lru (by simp [hlast])
            have haond : s.accessOrder.Nodup := hperm.nodup_iff.2 hnd
            have hlrund : lru ∉ s.accessOrder.dropLast := by
              intro hc
              rw [← hsplit, List.nodup_append] at haond
              exact haond.2.2 hc (List.mem_singleton_self lru)
            have herase : s.accessOrder.erase lru = s.accessOrder.dropLast := by
              conv_lhs => rw [← hsplit]
              rw [List.erase_append_right _ hlrund]
              simp
            have hd :
                List.Perm s.accessOrder.dropLast ((keysOf s).erase lru) := by
              rw [← herase]
              exact hperm.erase lru
            exact (hd.cons h).trans (List.perm_append_singleton h _).symm
          · show (s.cache.eraseP (fun p => p.1 == lru) ++ [(h, e)]).length ≤
                s.maxSize
            obtain ⟨p, hp, hpk⟩ := List.lookup_isSome_iff.1 hlru
            have hpa : (fun q : String × OCRCacheEntry => q.1 == lru) p := by
              simp only [beq_iff_eq] at hpk ⊢
              exact hpk.symm
            have hlenp := List.length_eraseP_of_mem
              (p := fun q : String × OCRCacheEntry => q.1 == lru) hp hpa
            have hpos : 0 < s.cache.length := List.length_pos_of_mem hp
            rw [List.length_append, List.length_singleton]
            omega
    case isFalse hnotfull =>
      simp only [Option.some.injEq] at hput
      subst hput
      have hnoth : h ∉ keysOf s := fun hc =>
        hnotin ((lookup_isSome_mem _ _).2 hc)
      have hkeys :
          keysOf { s with
            cache := s.cache ++ [(h, e)],
            accessOrder := h :: s.accessOrder } = keysOf s ++ [h] := by
        show (s.cache ++ [(h, e)]).map Prod.fst = _
        rw [List.map_append]; rfl
      refine ⟨?_, ?_, ?_⟩
      · rw [hkeys, List.nodup_append]
        refine ⟨hnd, List.nodup_singleton _, ?_⟩
        intro a ha hb
        simp only [List.mem_singleton] at hb
        exact hnoth (hb ▸ ha)
      · rw [hkeys]
        exact (hperm.cons h).trans (List.perm_append_singleton h _).symm
      · show (s.cache ++ [(h, e)]).length ≤ s.maxSize
        rw [List.length_append, List.length_singleton]
        omega

theorem execMoves_all_ok (staged : List Move) :
    execMoves (fun _ => false) staged = (staged, true) := by
  induction staged with
  | nil => rfl
  | cons m rest ih => simp [execMoves, ih]

/-- C2: `TransactionManager.commit` runs the persistence callback before any
filesystem change; when the callback reports failure nothing is moved and
`rollback()` leaves the staged list empty, and only on callback success are
the staged relocations performed, in the order staged (shown on the path
where the moves themselves do not raise). -/
theorem commit_callback_gates_moves :
    (∀ staged moveFails,
      tmCommit staged false moveFails = (false, [], [])) ∧
    (∀ staged, tmCommit staged true (fun _ => false) = (true, staged, [])) := by
  constructor
  · intro staged moveFails
    rfl
  · intro staged
    unfold tmCommit
    simp [execMoves_all_ok]

/-- C1 counterexample: one scan over two distinct files with identical
content (same digest "D1", different names) adds TWO pending records with
the same digest — the known-hash set is snapshotted once before the loop and
`add_pending` performs no membership check, so the second ingestion of the
same content within one scan is not a no-op. -/
theorem scan_same_content_twice_adds_two_records :
    ((runScan ⟨[], []⟩
        [("Screenshot_a.jpg", "D1"), ("Screenshot_b.jpg", "D1")]
        (fun _ => sampleEntry) (fun n => n)).pending.map
      (fun it => it.file_hash)) = ["D1", "D1"] := by
  rfl

/-- C1 amended: the records a scan adds are exactly one per discovered file
whose digest is absent from the known-hash set as snapshotted at scan start,
in processing order.  Hence ingesting content whose digest is already known
(from an earlier scan — any filename) adds no record, but two files of
identical content both first seen within one scan each add a record. -/
theorem runScan_adds_filtered_records (st : DMState)
    (files : List (String × String)) (res : String → OCRCacheEntry)
    (finalPath : String → String) :
    (runScan st files res finalPath).pending =
      st.pending ++
        (files.filter (fun f => !(st.hashes.contains f.2))).map
          (fun f => mkScanItem f.1 f.2 (res f.2) (finalPath f.1)) := by
  unfold runScan
  generalize files.filter (fun f => !(st.hashes.contains f.2)) = nf
  induction nf generalizing st with
  | nil => simp
  | cons f rest ih =>
    simp only [List.foldl_cons, List.map_cons]
    rw [ih]
    simp [addPending]

/-- C8 counterexample: the worker applies no sort to the `os.walk`
enumeration; with a walk that yields names out of order, the processing
order equals the walk order and is not sorted, so the claimed "sorted
discovery order" does not hold. -/
theorem scan_order_not_sorted :
    discoveredFiles ["Screenshot_b.jpg", "Screenshot_a.jpg"] =
      ["Screenshot_b.jpg", "Screenshot_a.jpg"] ∧
    ¬ List.Sorted (fun a b : String => strLe a b = true)
        (discoveredFiles ["Screenshot_b.jpg", "Screenshot_a.jpg"]) := by
  constructor
  · decide
  · show ¬ List.Pairwise _ _
    decide

/-- C8 amended: within one scan the files processed are the walk enumeration
filtered by the screenshot name pattern, preserving the enumeration's
relative order (a sublist — no sorting, no reordering).  The event sequence
is thus a deterministic function of the walk order alone: repeated runs
coincide exactly when the directory walks enumerate identically, which the
code does not otherwise enforce. -/
theorem discoveredFiles_walk_order (walkOrder : List String) :
    List.Sublist (discoveredFiles walkOrder) walkOrder ∧
    (∀ f, f ∈ discoveredFiles walkOrder ↔
      f ∈ walkOrder ∧ isScreenshotFile f = true) := by
  refine ⟨List.filter_sublist _, ?_⟩
  intro f
  simp [discoveredFiles, List.mem_filter]

/-- C7 counterexample: loading a cache file whose second entry is malformed
leaves the first entry in the cache — the `except` branch of
`load_from_file` only logs, it never clears `self.cache`, so a corrupt file
does NOT result in an empty cache. -/
theorem load_corrupt_file_keeps_loaded_entries :
    (lruLoadFromFile ⟨10, [], []⟩
        (CacheFileContent.entriesList
          [("h1", some sampleEntry), ("h2", none)])).cache =
      [("h1", sampleEntry)] := by
  rfl

/-- C7 amended: a corrupt cache file never raises to the caller and never
resets the cache: a `json.load` failure leaves the pre-existing cache
exactly as it was, and a malformed entry mid-file leaves the entries loaded
before it (on top of any pre-existing ones) — the load behaves as if the
file ended just before the malformed entry. -/
theorem load_failure_swallowed (s : LRUState)
    (valid : List (String × Option OCRCacheEntry)) (h : String)
    (rest : List (String × Option OCRCacheEntry)) :
    lruLoadFromFile s
        (CacheFileContent.entriesList (valid ++ (h, none) :: rest)) =
      lruLoadFromFile s (CacheFileContent.entriesList valid) ∧
    lruLoadFromFile s CacheFileContent.badJson = s := by
  refine ⟨?_, rfl⟩
  show lruLoadEntries s (valid ++ (h, none) :: rest) = lruLoadEntries s valid
  induction valid generalizing s with
  | nil => rfl
  | cons p tl ih =>
    obtain ⟨k, oe⟩ := p
    cases oe with
    | none => rfl
    | some e =>
      show (match lruPut s k e with
        | some s' => lruLoadEntries s' (tl ++ (h, none) :: rest)
        | none => s) =
        (match lruPut s k e with
        | some s' => lruLoadEntries s' tl
        | none => s)
      cases lruPut s k e with
      | none => rfl
      | some s' => exact ih s'

/-- C4 counterexample: a failure while serializing the pending CSV restores
the live file from the backup but is swallowed — `save_pending_csv` catches
every exception, logs, and returns `None`, so no failure is surfaced to the
caller (second component `none`), contradicting the claim's "surfaces the
failure to the caller". -/
theorem save_failure_not_surfaced :
    savePendingCsv ⟨some ["old"], none, none⟩ ["new"] SaveFail.atSerialize =
      (⟨some ["old"], some ["old"], none⟩, none) := by
  rfl

/-- C4 amended: on any failure before or during serialize-or-rename (from a
state whose leftover backup, if any, matches the live file — the situation
every reachable state satisfies), `save_pending_csv` leaves the live file's
content byte-identical to before the attempted save, but it does NOT
surface the failure: the exception is caught and only logged, and the
function returns normally. -/
theorem save_failure_restores_live (fs : PendingFs) (rows : List String)
    (fail : SaveFail)
    (hbak : fs.bak = none ∨ fs.bak = fs.live)
    (hf : (fail = SaveFail.atBackup ∧ fs.live ≠ none) ∨
      fail = SaveFail.atSerialize ∨ fail = SaveFail.atRename) :
    (savePendingCsv fs rows fail).1.live = fs.live ∧
    (savePendingCsv fs rows fail).2 = none := by
  obtain ⟨l, b, t⟩ := fs
  rcases hf with ⟨rfl, hl⟩ | rfl | rfl
  · cases l with
    | none => exact absurd rfl hl
    | some c =>
      rcases hbak with hb | hb <;> simp only at hb <;> subst hb <;>
        simp [savePendingCsv, saveExcept]
  · cases l with
    | none =>
      rcases hbak with hb | hb <;> simp only at hb <;> subst hb <;>
        simp [savePendingCsv, saveExcept]
    | some c => simp [savePendingCsv, saveExcept]
  · cases l with
    | none =>
      rcases hbak with hb | hb <;> simp only at hb <;> subst hb <;>
        simp [savePendingCsv, saveExcept]
    | some c => simp [savePendingCsv, saveExcept]

/-- Witness for the C4 amended theorem at a concrete state: a rename
failure over live content `["r"]` keeps the live content and surfaces
nothing. -/
theorem save_failure_restores_live_witness :
    (savePendingCsv ⟨some ["r"], none, none⟩ ["n"] SaveFail.atRename).1.live =
      some ["r"] ∧
    (savePendingCsv ⟨some ["r"], none, none⟩ ["n"] SaveFail.atRename).2 =
      none :=
  save_failure_restores_live ⟨some ["r"], none, none⟩ ["n"]
    SaveFail.atRename (Or.inl rfl) (Or.inr (Or.inr rfl))

/-- C3 (code bug): marking the only pending record Done while the ledger
append fails loses the record from BOTH stores.  `mark_done` removes the
item from the pending set first; `append_completed`'s except branch only
logs, so no ledger row is written and the in-memory mirror is not updated;
`save_pending_csv` then persists the shrunken pending set.  Digest "D1" is
in neither the pending set nor the completed ledger afterwards. -/
theorem mark_done_append_failure_loses_record :
    (markDone ⟨[sampleItem], [], [], ["D1"], []⟩ 0 "Food" "ts" true).map
        (fun st => st.pending) = some [] ∧
    (markDone ⟨[sampleItem], [], [], ["D1"], []⟩ 0 "Food" "ts" true).map
        (fun st => st.completedCsv) = some [] := by
  constructor <;> rfl

theorem learnConfirmation_blank (k : List MerchantKnowledge)
    (m c now : String) (h : normalizeMerchant m = "" ∨ strTrim c = "") :
    learnConfirmation k m c now = (k, false) := by
  rcases h with h | h <;> simp [learnConfirmation, h]

theorem appendCompleted_knowledge (st : AppState) (item : TransactionItem)
    (af : Bool) : (appendCompleted st item af).knowledge = st.knowledge := by
  unfold appendCompleted
  split <;> rfl

/-- C10: `learn_confirmation` with a merchant that normalizes (case-fold,
trim) to the empty string, or with a category that strips to empty, returns
before touching the knowledge table and before any save — the table is
returned unchanged and `save_knowledge_atomic` is never invoked (Bool
component `false`), so the on-disk file is untouched.  In particular,
`mark_done` with no category selected passes the empty combo text to
`learn_confirmation` and records no confirmation. -/
theorem learn_blank_is_noop :
    (∀ k m c now, (normalizeMerchant m = "" ∨ strTrim c = "") →
      learnConfirmation k m c now = (k, false)) ∧
    (∀ st idx now af st', markDone st idx "" now af = some st' →
      st'.knowledge = st.knowledge) := by
  refine ⟨learnConfirmation_blank, ?_⟩
  intro st idx now af st' h
  unfold markDone at h
  cases hp : st.pending[idx]? with
  | none =>
    rw [hp] at h
    exact absurd h (by simp)
  | some item =>
    rw [hp] at h
    simp only [Option.some.injEq] at h
    subst h
    rw [appendCompleted_knowledge]
    show (learnConfirmation st.knowledge item.MerchantOCRValue "" now).1 =
      st.knowledge
    rw [learnConfirmation_blank _ _ _ _ (Or.inr (by decide))]

/-- Witness for C10 at concrete inputs: a whitespace-only merchant, and a
mark-done with empty combo category on a one-item state. -/
theorem learn_blank_is_noop_witness :
    learnConfirmation [] "  " "Food" "t" = ([], false) ∧
    (AppState.mk [] [] [] ["D1"] []).knowledge =
      (AppState.mk [sampleItem] [] [] ["D1"] []).knowledge :=
  ⟨learn_blank_is_noop.1 [] "  " "Food" "t" (Or.inl (by decide)),
   learn_blank_is_noop.2 ⟨[sampleItem], [], [], ["D1"], []⟩ 0 "t" true
     ⟨[], [], [], ["D1"], []⟩ (by decide)⟩

/-- C9: the `LRUCache` representation invariant — at most `max_size` cached
entries, and `access_order` holding exactly the cached digests, each exactly
once — is preserved by every Get and every Put; and a Put whose digest is
already present replaces that entry in place and evicts nothing: it
succeeds, and both the key set and the entry count are unchanged. -/
theorem lru_invariant_preserved :
    (∀ s h, LRUInv s → LRUInv (lruGet s h).2) ∧
    (∀ s h e s', LRUInv s → lruPut s h e = some s' → LRUInv s') ∧
    (∀ s h e, (s.cache.lookup h).isSome →
      lruPut s h e =
        some { s with
          cache := s.cache.map (fun p => if p.1 = h then (h, e) else p),
          accessOrder := h :: s.accessOrder.erase h } ∧
      (∀ s', lruPut s h e = some s' →
        keysOf s' = keysOf s ∧ s'.cache.length = s.cache.length)) := by
  refine ⟨lruGet_inv, lruPut_inv, ?_⟩
  intro s h e hin
  have heq : lruPut s h e =
      some { s with
        cache := s.cache.map (fun p => if p.1 = h then (h, e) else p),
        accessOrder := h :: s.accessOrder.erase h } := by
    unfold lruPut
    rw [hin]
    simp
  refine ⟨heq, ?_⟩
  intro s' hs'
  rw [heq] at hs'
  simp only [Option.some.injEq] at hs'
  subst hs'
  exact ⟨keys_replace s.cache h e, by simp⟩

/-- Witness for C9 at concrete states: a Get on a one-entry cache, a fresh
Put filling a two-entry cache, and an in-place Put. -/
theorem lru_invariant_preserved_witness :
    LRUInv (lruGet ⟨2, [("a", sampleEntry)], ["a"]⟩ "a").2 ∧
    LRUInv (⟨2, [("a", sampleEntry), ("b", sampleEntry)],
      ["b", "a"]⟩ : LRUState) ∧
    keysOf (⟨2, [("a", sampleEntry)], ["a"]⟩ : LRUState) =
      keysOf (⟨2, [("a", sampleEntry)], ["a"]⟩ : LRUState) :=
  ⟨lru_invariant_preserved.1 ⟨2, [("a", sampleEntry)], ["a"]⟩ "a" (by decide),
   lru_invariant_preserved.2.1 ⟨2, [("a", sampleEntry)], ["a"]⟩ "b"
     sampleEntry _ (by decide) (by decide),
   ((lru_invariant_preserved.2.2 ⟨2, [("a", sampleEntry)], ["a"]⟩ "a"
       sampleEntry (by decide)).2 _ (by decide)).1⟩

theorem keys_append_eraseP (l : List (String × OCRCacheEntry))
    (k h : String) (e : OCRCacheEntry) :
    ((l.eraseP (fun p => p.1 == k)) ++ [(h, e)]).map Prod.fst =
      (l.map Prod.fst).erase k ++ [h] := by
  rw [List.map_append, keys_eraseP]
  rfl

theorem lruPut_evict_eq (s : LRUState) (h : String) (e : OCRCacheEntry)
    (lru : String) (hnotin : (s.cache.lookup h).isSome = false)
    (hfull : s.maxSize ≤ s.cache.length)
    (hlast : s.accessOrder.getLast? = some lru)
    (hlru : (s.cache.lookup lru).isSome) :
    lruPut s h e = some { s with
      cache := s.cache.eraseP (fun p => p.1 == lru) ++ [(h, e)],
      accessOrder := h :: s.accessOrder.dropLast } := by
  unfold lruPut
  rw [hnotin, hlast]
  simp [hfull, hlru]

/-- C5: true LRU behavior of the bounded cache.  First conjunct: below
capacity, a Put of a fresh digest adds exactly one entry and evicts nothing
— so `max` distinct Puts starting empty leave exactly `max` entries.
Second block: from any state satisfying the representation invariant (any
Get/Put history) that holds exactly `max_size ≥ 1` entries, a Put of a
fresh digest — the `max+1`-st distinct digest — succeeds and leaves exactly
`max_size` entries, and the digest missing afterwards is precisely the back
of `access_order`: the digest whose most recent access is oldest.  The
final conjunct shows a Get moves the accessed digest to the front of
`access_order`, i.e. refreshes recency, so eviction follows accesses and
not insertion order. -/
theorem lru_bound_evicts_least_recently_used :
    (∀ s h e, s.cache.length < s.maxSize →
      (s.cache.lookup h).isSome = false →
      lruPut s h e = some { s with
        cache := s.cache ++ [(h, e)],
        accessOrder := h :: s.accessOrder }) ∧
    ∀ s h e, LRUInv s → s.cache.length = s.maxSize → 1 ≤ s.maxSize →
      (s.cache.lookup h).isSome = false →
      (lruPut s h e ≠ none) ∧
      (∀ lru s', s.accessOrder.getLast? = some lru →
        lruPut s h e = some s' →
        s'.cache.length = s.maxSize ∧ lru ∈ keysOf s ∧ lru ∉ keysOf s' ∧
        h ∈ keysOf s' ∧
        (∀ k, k ∈ keysOf s' ↔ k = h ∨ (k ∈ keysOf s ∧ k ≠ lru))) ∧
      (∀ h' e', s.cache.lookup h' = some e' →
        (lruGet s h').2.accessOrder = h' :: s.accessOrder.erase h') := by
  constructor
  · intro s h e hlt hnotin
    unfold lruPut
    rw [hnotin]
    simp [Nat.not_le.2 hlt]
  intro s h e hs hfull hmax hnotin
  obtain ⟨hnd, hperm, _⟩ := hs
  have hkeyslen : (keysOf s).length = s.maxSize := by
    simpa [keysOf] using hfull
  have haone : s.accessOrder ≠ [] := by
    intro hc
    have := hperm.length_eq
    rw [hc] at this
    simp [keysOf] at this
    omega
  have hlast0 : (s.accessOrder.getLast?).isSome := by
    rwa [List.getLast?_isSome]
  have hnoth : h ∉ keysOf s := fun hc =>
    (by simp [hnotin] : ¬ ((s.cache.lookup h).isSome = true))
      ((lookup_isSome_mem _ _).2 hc)
  have hlookup_of_last : ∀ lru, s.accessOrder.getLast? = some lru →
      (s.cache.lookup lru).isSome := by
    intro lru hlast
    have hmemao : lru ∈ s.accessOrder := List.mem_of_getLast?_eq_some hlast
    exact (lookup_isSome_mem _ _).2 (hperm.mem_iff.1 hmemao)
  refine ⟨?_, ?_, ?_⟩
  · obtain ⟨lru, hlast⟩ := Option.isSome_iff_exists.1 hlast0
    rw [lruPut_evict_eq s h e lru hnotin (le_of_eq hfull.symm) hlast
      (hlookup_of_last lru hlast)]
    simp
  · intro lru s' hlast hput
    rw [lruPut_evict_eq s h e lru hnotin (le_of_eq hfull.symm) hlast
      (hlookup_of_last lru hlast)] at hput
    simp only [Option.some.injEq] at hput
    subst hput
    have hmemlru : lru ∈ keysOf s :=
      (lookup_isSome_mem _ _).1 (hlookup_of_last lru hlast)
    have hkeys' :
        keysOf { s with
          cache := s.cache.eraseP (fun p => p.1 == lru) ++ [(h, e)],
          accessOrder := h :: s.accessOrder.dropLast } =
          (keysOf s).erase lru ++ [h] := keys_append_eraseP s.cache lru h e
    have hlruout : lru ∉ (keysOf s).erase lru ++ [h] := by
      rw [List.mem_append]
      rintro (hc | hc)
      · exact hnd.not_mem_erase hc
      · simp only [List.mem_singleton] at hc
        exact hnoth (hc ▸ hmemlru)
    refine ⟨?_, hmemlru, ?_, ?_, ?_⟩
    · show (s.cache.eraseP (fun p => p.1 == lru) ++ [(h, e)]).length =
        s.maxSize
      obtain ⟨p, hp, hpk⟩ :=
        List.lookup_isSome_iff.1 (hlookup_of_last lru hlast)
      have hpa : (fun q : String × OCRCacheEntry => q.1 == lru) p := by
        simp only [beq_iff_eq] at hpk ⊢
        exact hpk.symm
      have hlenp := List.length_eraseP_of_mem
        (p := fun q : String × OCRCacheEntry => q.1 == lru) hp hpa
      rw [List.length_append, List.length_singleton]
      omega
    · rw [hkeys']
      exact hlruout
    · rw [hkeys', List.mem_append]
      exact Or.inr (List.mem_singleton_self h)
    · intro k
      rw [hkeys', List.mem_append, List.mem_singleton,
        hnd.mem_erase_iff]
      constructor
      · rintro (⟨hk1, hk2⟩ | hk)
        · exact Or.inr ⟨hk2, hk1⟩
        · exact Or.inl hk
      · rintro (hk | ⟨hk1, hk2⟩)
        · exact Or.inr hk
        · exact Or.inl ⟨hk2, hk1⟩
  · intro h' e' hl'
    unfold lruGet
    rw [hl']

/-- Witness for C5 at a concrete full cache `{a, b}` of bound 2 where "a"
is the least recently accessed: putting fresh digest "c" keeps 2 entries
and evicts exactly "a", and a Get of "a" moves it to the front. -/
theorem lru_bound_evicts_witness :
    lruPut ⟨2, [], []⟩ "a" sampleEntry =
      some ⟨2, [("a", sampleEntry)], ["a"]⟩ ∧
    (LRUState.mk 2 [("b", sampleEntry), ("c", sampleEntry)]
      ["c", "b"]).cache.length = 2 ∧
    "a" ∉ keysOf (LRUState.mk 2 [("b", sampleEntry), ("c", sampleEntry)]
      ["c", "b"]) ∧
    (lruGet (LRUState.mk 2 [("a", sampleEntry), ("b", sampleEntry)]
      ["b", "a"]) "a").2.accessOrder = ["a", "b"] := by
  have H0 := lru_bound_evicts_least_recently_used.1
    ⟨2, [], []⟩ "a" sampleEntry (by decide) (by decide)
  have H := lru_bound_evicts_least_recently_used.2
    ⟨2, [("a", sampleEntry), ("b", sampleEntry)], ["b", "a"]⟩ "c"
    sampleEntry (by decide) (by decide) (by decide) (by decide)
  have H2 := H.2.1 "a"
    ⟨2, [("b", sampleEntry), ("c", sampleEntry)], ["c", "b"]⟩
    (by decide) (by decide)
  exact ⟨H0, H2.1, H2.2.2.1, H.2.2 "a" sampleEntry (by decide)⟩

theorem firstOccurAux_cons (s : List String) (x : String)
    (xs : List String) :
    firstOccurAux s (x :: xs) =
      if x ∈ s then firstOccurAux s xs
      else x :: firstOccurAux (x :: s) xs := rfl

theorem firstOccurAux_congr (l : List String) :
    ∀ s₁ s₂ : List String, (∀ x, x ∈ s₁ ↔ x ∈ s₂) →
    firstOccurAux s₁ l = firstOccurAux s₂ l := by
  induction l with
  | nil => intro s₁ s₂ _; rfl
  | cons x xs ih =>
    intro s₁ s₂ h
    unfold firstOccurAux
    by_cases hx : x ∈ s₁
    · rw [if_pos hx, if_pos ((h x).1 hx)]
      exact ih s₁ s₂ h
    · rw [if_neg hx, if_neg (fun hc => hx ((h x).2 hc))]
      congr 1
      refine ih (x :: s₁) (x :: s₂) ?_
      intro y
      simp [h y]

theorem mem_firstOccurAux_not_seen (l : List String) :
    ∀ (s : List String) (x : String), x ∈ firstOccurAux s l → x ∉ s := by
  induction l with
  | nil =>
    intro s x hx
    simp [firstOccurAux] at hx
  | cons a as ih =>
    intro s x hx
    unfold firstOccurAux at hx
    by_cases ha : a ∈ s
    · rw [if_pos ha] at hx
      exact ih s x hx
    · rw [if_neg ha] at hx
      intro hxs
      rcases List.mem_cons.1 hx with rfl | hx'
      · exact ha hxs
      · exact ih (a :: s) x hx' (List.mem_cons_of_mem a hxs)

theorem bumpCount_keys_of_mem (c : String) (n : Nat) :
    ∀ acc : List (String × Nat), c ∈ acc.map Prod.fst →
    (bumpCount c n acc).map Prod.fst = acc.map Prod.fst := by
  intro acc
  induction acc with
  | nil => intro h; simp at h
  | cons p rest ih =>
    intro h
    unfold bumpCount
    by_cases hp : p.1 = c
    · rw [if_pos hp]
      simp
    · rw [if_neg hp]
      simp only [List.map_cons]
      congr 1
      apply ih
      simp only [List.map_cons, List.mem_cons] at h
      rcases h with h | h
      · exact absurd h.symm hp
      · exact h

theorem bumpCount_of_not_mem (c : String) (n : Nat) :
    ∀ acc : List (String × Nat), c ∉ acc.map Prod.fst →
    bumpCount c n acc = acc ++ [(c, n)] := by
  intro acc
  induction acc with
  | nil => intro _; rfl
  | cons p rest ih =>
    intro h
    unfold bumpCount
    have hp : ¬ (p.1 = c) := fun hc => h (by simp [hc])
    rw [if_neg hp]
    simp only [List.cons_append]
    congr 1
    exact ih (fun hc => h (by simp [hc]))

theorem bumpCount_map_add (c₀ : String) (n₀ : Nat) (T T' : String → Nat)
    (hT : ∀ x, x ≠ c₀ → T' x = T x) (hTc : T' c₀ = n₀ + T c₀) :
    ∀ acc : List (String × Nat), (acc.map Prod.fst).Nodup →
    c₀ ∈ acc.map Prod.fst →
    (bumpCount c₀ n₀ acc).map (fun p => (p.1, p.2 + T p.1)) =
      acc.map (fun p => (p.1, p.2 + T' p.1)) := by
  intro acc
  induction acc with
  | nil => intro _ hmem; simp at hmem
  | cons p rest ih =>
    intro hnd hmem
    simp only [List.map_cons, List.nodup_cons] at hnd
    by_cases hp : p.1 = c₀
    · unfold bumpCount
      rw [if_pos hp]
      simp only [List.map_cons]
      congr 1
      · rw [hp, hTc]
        simp [Nat.add_assoc]
      · apply List.map_congr_left
        intro q hq
        have hqne : q.1 ≠ c₀ := by
          intro hc
          exact hnd.1 (hp ▸ hc ▸ List.mem_map_of_mem Prod.fst hq)
        rw [hT _ hqne]
    · unfold bumpCount
      rw [if_neg hp]
      simp only [List.map_cons]
      congr 1
      · rw [hT _ hp]
      · apply ih hnd.2
        simp only [List.map_cons, List.mem_cons] at hmem
        rcases hmem with hmem | hmem
        · exact absurd hmem.symm hp
        · exact hmem

theorem specTotal_cons_ne (nm c : String) (e : MerchantKnowledge)
    (rest : List MerchantKnowledge) (h : ¬ (e.merchant = nm)) :
    specTotal nm c (e :: rest) = specTotal nm c rest := by
  simp [specTotal, List.filter_cons, h]

theorem specTotal_cons_eq (nm c : String) (e : MerchantKnowledge)
    (rest : List MerchantKnowledge) (h : e.merchant = nm) :
    specTotal nm c (e :: rest) =
      (if e.category = c then e.confirmations else 0) +
        specTotal nm c rest := by
  by_cases hc : e.category = c
  · simp [specTotal, List.filter_cons, h, hc]
  · simp [specTotal, List.filter_cons, h, hc]

theorem matCats_cons_eq (nm : String) (e : MerchantKnowledge)
    (rest : List MerchantKnowledge) (h : e.merchant = nm) :
    matCats nm (e :: rest) = e.category :: matCats nm rest := by
  simp [matCats, List.filter_cons, h]

theorem matCats_cons_ne (nm : String) (e : MerchantKnowledge)
    (rest : List MerchantKnowledge) (h : ¬ (e.merchant = nm)) :
    matCats nm (e :: rest) = matCats nm rest := by
  simp [matCats, List.filter_cons, h]

theorem countsAux_spec (nm : String) (k : List MerchantKnowledge) :
    ∀ acc : List (String × Nat), (acc.map Prod.fst).Nodup →
    countsAux nm acc k =
      acc.map (fun p => (p.1, p.2 + specTotal nm p.1 k)) ++
      (firstOccurAux (acc.map Prod.fst) (matCats nm k)).map
        (fun c => (c, specTotal nm c k)) := by
  induction k with
  | nil =>
    intro acc _
    show acc = _
    simp [specTotal, matCats, firstOccurAux]
  | cons e rest ih =>
    intro acc hnd
    show countsAux nm
      (if e.merchant = nm then bumpCount e.category e.confirmations acc
       else acc) rest = _
    by_cases hm : e.merchant = nm
    · rw [if_pos hm, matCats_cons_eq nm e rest hm]
      by_cases hc : e.category ∈ acc.map Prod.fst
      · rw [ih _ (by rw [bumpCount_keys_of_mem _ _ _ hc]; exact hnd),
          bumpCount_keys_of_mem _ _ _ hc,
          firstOccurAux_cons, if_pos hc]
        congr 1
        · exact bumpCount_map_add e.category e.confirmations
            (fun x => specTotal nm x rest)
            (fun x => specTotal nm x (e :: rest))
            (fun x hx => by
              show specTotal nm x (e :: rest) = specTotal nm x rest
              rw [specTotal_cons_eq nm x e rest hm,
                if_neg (fun hcx => hx hcx.symm), Nat.zero_add])
            (by
              show specTotal nm e.category (e :: rest) =
                e.confirmations + specTotal nm e.category rest
              rw [specTotal_cons_eq nm e.category e rest hm, if_pos rfl])
            acc hnd hc
        · apply List.map_congr_left
          intro c hcmem
          have hne : c ≠ e.category := fun hcc =>
            mem_firstOccurAux_not_seen _ _ _ hcmem (hcc ▸ hc)
          rw [specTotal_cons_eq nm c e rest hm,
            if_neg (fun hcx => hne hcx.symm), Nat.zero_add]
      · rw [ih _ (by
            rw [bumpCount_of_not_mem _ _ _ hc, List.map_append]
            simp only [List.map_cons, List.map_nil]
            rw [List.nodup_append]
            exact ⟨hnd, List.nodup_singleton _, by
              intro a ha hb
              simp only [List.mem_singleton] at hb
              exact hc (hb ▸ ha)⟩),
          bumpCount_of_not_mem _ _ _ hc]
        rw [List.map_append, List.map_append]
        simp only [List.map_cons, List.map_nil]
        rw [firstOccurAux_cons, if_neg hc]
        rw [firstOccurAux_congr (matCats nm rest)
          (acc.map Prod.fst ++ [e.category])
          (e.category :: acc.map Prod.fst) (by intro y; simp; tauto)]
        rw [List.append_assoc]
        congr 1
        · apply List.map_congr_left
          intro q hq
          have hqne : q.1 ≠ e.category := fun hcc =>
            hc (hcc ▸ List.mem_map_of_mem Prod.fst hq)
          rw [specTotal_cons_eq nm q.1 e rest hm,
            if_neg (fun hcx => hqne hcx.symm), Nat.zero_add]
        · simp only [List.map_cons, List.singleton_append]
          congr 1
          · rw [specTotal_cons_eq nm e.category e rest hm, if_pos rfl]
          · apply List.map_congr_left
            intro c hcmem
            have hcnot := mem_firstOccurAux_not_seen _ _ _ hcmem
            have hne : c ≠ e.category := fun hcc =>
              hcnot (hcc ▸ List.mem_cons_self _ _)
            rw [specTotal_cons_eq nm c e rest hm,
              if_neg (fun hcx => hne hcx.symm), Nat.zero_add]
    · rw [if_neg hm, ih acc hnd, matCats_cons_ne nm e rest hm]
      simp only [specTotal_cons_ne nm _ e rest hm]

theorem categoryCounts_spec (nm : String) (k : List MerchantKnowledge) :
    categoryCounts nm k =
      (firstOccurAux [] (matCats nm k)).map
        (fun c => (c, specTotal nm c k)) := by
  have h := countsAux_spec nm k [] (by simp)
  simpa [categoryCounts] using h

theorem learnN_acme (n : Nat) (h : 1 ≤ n) :
    learnN "Acme" "Food" "t" n = [⟨"acme", "Food", n, "t", "t"⟩] := by
  induction n with
  | zero => omega
  | succ m ih =>
    by_cases hm : m = 0
    · subst hm
      decide
    · have hm1 : 1 ≤ m := Nat.one_le_iff_ne_zero.2 hm
      show (learnConfirmation (learnN "Acme" "Food" "t" m)
        "Acme" "Food" "t").1 = _
      rw [ih hm1]
      rfl

theorem getSuggested_single (n t : Nat) :
    getSuggestedCategory [⟨"acme", "Food", n, "t", "t"⟩] "Acme" t =
      if t ≤ n then some "Food" else none := by
  rfl

/-- C6: `get_suggested_category` computes exactly the specified function —
sum confirmation counts per category for the normalized merchant, return
the category with the highest total iff that total reaches the threshold,
ties broken by first-seen order (first appearance in the knowledge list) —
and in particular confirming one (merchant, category) pair `threshold`
times from empty knowledge yields that category, while `threshold - 1`
confirmations yield none. -/
theorem suggestion_matches_spec :
    (∀ k m t, getSuggestedCategory k m t = specSuggestion k m t) ∧
    (∀ t, 1 ≤ t →
      getSuggestedCategory (learnN "Acme" "Food" "t" t) "Acme" t =
        some "Food" ∧
      getSuggestedCategory (learnN "Acme" "Food" "t" (t - 1)) "Acme" t =
        none) := by
  constructor
  · intro k m t
    simp only [getSuggestedCategory, specSuggestion, specCatsFirstSeen,
      categoryCounts_spec]
  · intro t ht
    constructor
    · rw [learnN_acme t ht, getSuggested_single, if_pos (Nat.le_refl t)]
    · by_cases h1 : t = 1
      · subst h1
        rfl
      · have h2 : 1 ≤ t - 1 := by omega
        rw [learnN_acme _ h2, getSuggested_single, if_neg (by omega)]

/-- Witness for C6 at `threshold = 2`: two confirmations of
("Acme", "Food") suggest "Food", a single one suggests nothing. -/
theorem suggestion_matches_spec_witness :
    getSuggestedCategory (learnN "Acme" "Food" "t" 2) "Acme" 2 =
      some "Food" ∧
    getSuggestedCategory (learnN "Acme" "Food" "t" (2 - 1)) "Acme" 2 =
      none :=
  suggestion_matches_spec.2 2 (by decide)

end NdisApp
